import Mathlib

/-!
Verification of `flashboot_core/utils/project_utils.py` (class
`ProjectRootFinder`).

Filesystem paths are modelled as lists of name components, deepest
component first, so the filesystem root is `[]` and `pathlib`'s lexical
`Path.parent` (which drops the last component and maps the root to
itself) is `List.tail`.  The filesystem itself is an abstract record of
the Boolean queries the code performs (`exists()`, `is_dir()`,
`is_file()`, and non-emptiness of `glob("*.py")`); these are total, so
the `try/except Exception` wrappers in the source never fire in the
model.  `find_root` strategies are abstracted as an environment mapping
a strategy name to its outcome: `Except.error ()` models a raised
exception, `Except.ok none` a `None` return, `Except.ok (some p)` a
returned path (a `pathlib.Path` object is always truthy, so Python's
`if result:` and `if self._cache:` test exactly for `None`).
-/

namespace ProjectUtils

/-- A filesystem path: component list, deepest first; `[]` is the root. -/
abbrev FsPath := List String

/-- `pathlib.Path.parent`: lexical, drops the deepest component; the root
is its own parent. -/
def parentOf (p : FsPath) : FsPath := p.tail

/-- `pathlib.Path.name`: deepest component; `""` for the root. -/
def baseName (p : FsPath) : String := p.headD ""

/-- `current / name`: append one component below `current`. -/
def childOf (p : FsPath) (name : String) : FsPath := name :: p

/-- Abstract filesystem: the Boolean queries `_find_by_markers` and
`_find_by_structure` perform. `hasPyFile` is non-emptiness of
`list(current.glob("*.py"))`. -/
structure FS where
  pathExists : FsPath → Bool
  isDir : FsPath → Bool
  isFile : FsPath → Bool
  hasPyFile : FsPath → Bool

/-- `ProjectRootFinder._MAX_TRAVERSAL_DEPTH` (line 19). -/
def MAX_TRAVERSAL_DEPTH : Nat := 50

/-- `ProjectRootFinder._DEFAULT_MARKERS` (lines 22-37). -/
def DEFAULT_MARKERS : List String :=
  ["setup.py", "pyproject.toml", "setup.cfg", "poetry.lock", "uv.lock",
   "requirements.txt", ".git", ".gitignore", ".hg", "Pipfile", "Makefile",
   ".idea", ".vscode", ".venv"]

/-- `ProjectRootFinder._NON_ROOT_DIR_NAMES` (line 39). -/
def NON_ROOT_DIR_NAMES : List String := [".venv", ".idea", ".git", ".vscode", ".hg"]

/-- `if not markers: markers = self._DEFAULT_MARKERS` (lines 174-175):
`not markers` is true both for `None` and for the empty list. -/
def effectiveMarkers (markers : Option (List String)) : List String :=
  match markers with
  | none => DEFAULT_MARKERS
  | some l => if l.isEmpty then DEFAULT_MARKERS else l

/-- `sum(1 for marker in markers if (current / marker).exists())`
(lines 198-200). -/
def markerCount (fs : FS) (markers : List String) (current : FsPath) : Nat :=
  (markers.filter (fun m => fs.pathExists (childOf current m))).length

/-- `candidates[current] = marker_count` (line 202): Python dict insertion
keeps an existing key in place and otherwise appends in insertion order. -/
def dictInsert (cands : List (FsPath × Nat)) (k : FsPath) (v : Nat) :
    List (FsPath × Nat) :=
  if cands.any (fun a => a.1 = k) then
    cands.map (fun a => if a.1 = k then (k, v) else a)
  else
    cands ++ [(k, v)]

/-- The `while` loop of `_find_by_markers` (lines 186-204), fuel
`_MAX_TRAVERSAL_DEPTH - depth`.  Returns the final `candidates` dict
(as an insertion-ordered association list) together with the number of
loop iterations performed (the final value of `depth`). -/
def markersLoop (fs : FS) (markers : List String) :
    Nat → FsPath → List (FsPath × Nat) → List (FsPath × Nat) × Nat
  | 0, _, cands => (cands, 0)
  | fuel + 1, current, cands =>
    if current = parentOf current then (cands, 0)
    else
      let rest :=
        if !(fs.pathExists current && fs.isDir current) then
          markersLoop fs markers fuel (parentOf current) cands
        else if NON_ROOT_DIR_NAMES.contains (baseName current) then
          markersLoop fs markers fuel (parentOf current) cands
        else
          let c := markerCount fs markers current
          markersLoop fs markers fuel (parentOf current)
            (if 0 < c then dictInsert cands current c else cands)
      (rest.1, rest.2 + 1)

/-- `if current.is_file(): current = current.parent` (lines 182-183),
applied before the marker-scoring loop starts. -/
def startDir (fs : FS) (start : FsPath) : FsPath :=
  if fs.isFile start then parentOf start else start

/-- The `candidates` dict recorded by `_find_by_markers` at `start`. -/
def markersCandidates (fs : FS) (start : FsPath) (markers : Option (List String)) :
    List (FsPath × Nat) :=
  (markersLoop fs (effectiveMarkers markers) MAX_TRAVERSAL_DEPTH (startDir fs start) []).1

/-- The number of loop iterations `_find_by_markers` performs at `start`. -/
def markersSteps (fs : FS) (start : FsPath) (markers : Option (List String)) : Nat :=
  (markersLoop fs (effectiveMarkers markers) MAX_TRAVERSAL_DEPTH (startDir fs start) []).2

/-- Python `max(items, key=...)`: left-to-right scan, replacing the
running best only on a strictly greater key, so the first maximal
element wins. -/
def pyMax2 (best : FsPath × Nat) : List (FsPath × Nat) → FsPath × Nat
  | [] => best
  | x :: xs => pyMax2 (if best.2 < x.2 then x else best) xs

/-- `if not candidates: return None` then
`return max(candidates.items(), key=lambda x: x[1])[0]` (lines 208-211). -/
def pyMaxBySnd : List (FsPath × Nat) → Option FsPath
  | [] => none
  | x :: xs => some (pyMax2 x xs).1

/-- `ProjectRootFinder._find_by_markers` (lines 166-211) for an explicit,
non-`None` start path. -/
def findByMarkers (fs : FS) (start : FsPath) (markers : Option (List String)) :
    Option FsPath :=
  pyMaxBySnd (markersCandidates fs start markers)

/-- The structure test of `_find_by_structure` (lines 223-228): a `src`
or `lib` subdirectory exists, and the directory directly holds a `.py`
file. -/
def structCheck (fs : FS) (current : FsPath) : Bool :=
  ((fs.pathExists (childOf current "src") && fs.isDir (childOf current "src")) ||
   (fs.pathExists (childOf current "lib") && fs.isDir (childOf current "lib"))) &&
  fs.hasPyFile current

/-- The `while` loop of `_find_by_structure` (lines 221-230).  Note that,
unlike `_find_by_markers`, this loop starts at `start_path` itself even
when it is a file. -/
def structLoop (fs : FS) : Nat → FsPath → Option FsPath
  | 0, _ => none
  | fuel + 1, current =>
    if current = parentOf current then none
    else if structCheck fs current then some current
    else structLoop fs fuel (parentOf current)

/-- `ProjectRootFinder._find_by_structure` (lines 213-231). -/
def findByStructure (fs : FS) (start : FsPath) : Option FsPath :=
  structLoop fs MAX_TRAVERSAL_DEPTH start

/-- The mutable state of a `ProjectRootFinder` instance relevant to
`find_root`: the `_cache` slot (line 46). -/
structure ResolverState where
  cache : Option FsPath
deriving DecidableEq

/-- The keys of `method_map` (lines 244-250). -/
def knownMethods : List String := ["git", "svn", "hg", "markers", "structure"]

/-- The default `search_methods` list (line 242). -/
def defaultSearchMethods : List String := ["git", "svn", "hg", "markers", "structure"]

/-- Abstract behaviour of the five strategies on this instance:
`Except.error ()` models a raised exception, `Except.ok none` a `None`
return, `Except.ok (some p)` a found root. -/
abbrev StrategyEnv := String → Except Unit (Option FsPath)

/-- Outcomes that count as "not found" for a strategy: an exception or a
`None` return. -/
def yieldsNoPath : Except Unit (Option FsPath) → Bool
  | Except.ok (some _) => false
  | _ => true

/-- The `for method_name in search_methods` loop of `find_root`
(lines 252-270).  Returns the call result, the value written to the
cache (`none` when no strategy succeeded, so nothing is written), and
the invocation trace: the names of the strategies actually invoked, in
order.  Unknown names are skipped without an invocation (lines 253-256);
an exception from a strategy is caught and treated as no result
(lines 258-264); a non-`None` result is cached and returned at once
(lines 266-268); exhaustion raises `FileNotFoundError` (line 270). -/
def findRootGo (env : StrategyEnv) : List String →
    Except Unit FsPath × Option FsPath × List String
  | [] => (Except.error (), none, [])
  | name :: rest =>
    if knownMethods.contains name then
      match env name with
      | Except.ok (some p) => (Except.ok p, some p, [name])
      | Except.ok none =>
        ((findRootGo env rest).1, (findRootGo env rest).2.1,
          name :: (findRootGo env rest).2.2)
      | Except.error _ =>
        ((findRootGo env rest).1, (findRootGo env rest).2.1,
          name :: (findRootGo env rest).2.2)
    else findRootGo env rest

/-- `ProjectRootFinder.find_root` (lines 233-270): result, new instance
state, and invocation trace.  `if self._cache: return self._cache`
(lines 238-239) short-circuits without invoking anything (a `Path` is
always truthy, so this is a `None` test). -/
def findRoot (env : StrategyEnv) (s : ResolverState)
    (searchMethods : Option (List String)) :
    Except Unit FsPath × ResolverState × List String :=
  match s.cache with
  | some p => (Except.ok p, s, [])
  | none =>
    let ms := searchMethods.getD defaultSearchMethods
    ((findRootGo env ms).1, ⟨(findRootGo env ms).2.1⟩, (findRootGo env ms).2.2)

/-! ### Basic path lemmas -/

theorem parentOf_self_iff (p : FsPath) : p = parentOf p ↔ p = [] := by
  cases p with
  | nil => simp [parentOf]
  | cons a t =>
    simp only [parentOf, List.tail_cons]
    constructor
    · intro h
      exact absurd (congrArg List.length h) (by simp)
    · intro h; exact absurd h (by simp)

theorem parentOf_length (p : FsPath) (h : p ≠ []) :
    (parentOf p).length + 1 = p.length := by
  cases p with
  | nil => exact absurd rfl h
  | cons a t => simp [parentOf]

/-! ### Step counting (claim C6) -/

theorem markersLoop_steps (fs : FS) (markers : List String) :
    ∀ (fuel : Nat) (current : FsPath) (cands : List (FsPath × Nat)),
      (markersLoop fs markers fuel current cands).2 = min current.length fuel := by
  intro fuel
  induction fuel with
  | zero => intro current cands; simp [markersLoop]
  | succ n ih =>
    intro current cands
    by_cases hroot : current = parentOf current
    · have hnil : current = [] := (parentOf_self_iff current).1 hroot
      subst hnil
      simp [markersLoop, parentOf]
    · have hnil : current ≠ [] := by
        intro h
        exact hroot (by simp [h, parentOf])
      have hlen := parentOf_length current hnil
      simp only [markersLoop, if_neg hroot]
      have hbranch :
          (if !(fs.pathExists current && fs.isDir current) then
              markersLoop fs markers n (parentOf current) cands
            else if NON_ROOT_DIR_NAMES.contains (baseName current) then
              markersLoop fs markers n (parentOf current) cands
            else
              markersLoop fs markers n (parentOf current)
                (if 0 < markerCount fs markers current then
                  dictInsert cands current (markerCount fs markers current)
                else cands)).2 = min (parentOf current).length n := by
        split
        · exact ih _ _
        · split
          · exact ih _ _
          · exact ih _ _
      rw [hbranch]
      omega

/-- C6: `_find_by_markers` terminates: its loop runs at most the fixed
maximum of 50 iterations, and also stops as soon as the current
directory equals its own parent — the iteration count is exactly the
minimum of the start directory's depth and the hop bound, so depth
beyond the bound (or any pathology below it) cannot extend the
traversal. -/
theorem findByMarkers_terminates (fs : FS) (start : FsPath)
    (markers : Option (List String)) :
    markersSteps fs start markers ≤ MAX_TRAVERSAL_DEPTH ∧
    markersSteps fs start markers = min (startDir fs start).length MAX_TRAVERSAL_DEPTH := by
  have h := markersLoop_steps fs (effectiveMarkers markers) MAX_TRAVERSAL_DEPTH
    (startDir fs start) []
  refine ⟨?_, h⟩
  rw [show markersSteps fs start markers =
    (markersLoop fs (effectiveMarkers markers) MAX_TRAVERSAL_DEPTH
      (startDir fs start) []).2 from rfl, h]
  exact Nat.min_le_right _ _

/-- C8: an empty marker override, like an absent one, means "use the
default marker set": the recorded candidates and the returned directory
are identical in all three cases. -/
theorem findByMarkers_empty_is_default (fs : FS) (start : FsPath) :
    markersCandidates fs start (some []) = markersCandidates fs start (some DEFAULT_MARKERS) ∧
    markersCandidates fs start none = markersCandidates fs start (some DEFAULT_MARKERS) ∧
    findByMarkers fs start (some []) = findByMarkers fs start (some DEFAULT_MARKERS) ∧
    findByMarkers fs start none = findByMarkers fs start (some DEFAULT_MARKERS) := by
  have h : effectiveMarkers (some []) = effectiveMarkers (some DEFAULT_MARKERS) ∧
      effectiveMarkers none = effectiveMarkers (some DEFAULT_MARKERS) := by
    constructor <;> rfl
  refine ⟨?_, ?_, ?_, ?_⟩ <;>
    simp only [markersCandidates, findByMarkers, h.1, h.2]

/-! ### The Python `max` scan (selection in `_find_by_markers`) -/

theorem pyMax2_snd_le (best : FsPath × Nat) (xs : List (FsPath × Nat)) :
    best.2 ≤ (pyMax2 best xs).2 := by
  induction xs generalizing best with
  | nil => simp [pyMax2]
  | cons y ys ih =>
    simp only [pyMax2]
    by_cases h : best.2 < y.2
    · simp only [if_pos h]
      exact le_trans (le_of_lt h) (ih y)
    · simp only [if_neg h]
      exact ih best

theorem pyMax2_mem (best : FsPath × Nat) (xs : List (FsPath × Nat)) :
    pyMax2 best xs ∈ best :: xs := by
  induction xs generalizing best with
  | nil => simp [pyMax2]
  | cons y ys ih =>
    simp only [pyMax2]
    by_cases h : best.2 < y.2
    · simp only [if_pos h]
      have := ih y
      simp only [List.mem_cons] at this ⊢
      tauto
    · simp only [if_neg h]
      have := ih best
      simp only [List.mem_cons] at this ⊢
      tauto

theorem pyMax2_is_ub (best : FsPath × Nat) (xs : List (FsPath × Nat)) :
    ∀ a ∈ best :: xs, a.2 ≤ (pyMax2 best xs).2 := by
  induction xs generalizing best with
  | nil =>
    intro a ha
    simp only [List.mem_singleton] at ha
    simp [ha, pyMax2]
  | cons y ys ih =>
    intro a ha
    simp only [pyMax2]
    have hz : best.2 ≤ (if best.2 < y.2 then y else best).2 ∧
        y.2 ≤ (if best.2 < y.2 then y else best).2 := by
      by_cases h : best.2 < y.2 <;> simp [h] <;> omega
    rcases List.mem_cons.1 ha with rfl | ha
    · exact le_trans hz.1 (pyMax2_snd_le _ ys)
    · rcases List.mem_cons.1 ha with rfl | ha
      · exact le_trans hz.2 (pyMax2_snd_le _ ys)
      · exact ih _ _ (List.mem_cons_of_mem _ ha)

/-- The scan is stable: everything strictly before the returned element
in the scanned list has a strictly smaller count, so the first (and in
candidate order, nearest) element among those tied for the maximum is
the one returned. -/
theorem pyMax2_stable (xs : List (FsPath × Nat)) :
    ∀ best : FsPath × Nat, ∃ l1 l2,
      best :: xs = l1 ++ pyMax2 best xs :: l2 ∧
      ∀ a ∈ l1, a.2 < (pyMax2 best xs).2 := by
  induction xs with
  | nil =>
    intro best
    exact ⟨[], [], by simp [pyMax2], by simp⟩
  | cons y ys ih =>
    intro best
    simp only [pyMax2]
    by_cases h : best.2 < y.2
    · simp only [if_pos h]
      obtain ⟨l1, l2, hdec, hlt⟩ := ih y
      refine ⟨best :: l1, l2, by simpa using hdec, ?_⟩
      intro a ha
      rcases List.mem_cons.1 ha with rfl | ha
      · exact lt_of_lt_of_le h (pyMax2_snd_le y ys)
      · exact hlt a ha
    · simp only [if_neg h]
      obtain ⟨l1, l2, hdec, hlt⟩ := ih best
      cases l1 with
      | nil =>
        simp only [List.nil_append] at hdec
        have hbest : pyMax2 best ys = best := by
          have := congrArg (fun l => l.headD best) hdec
          simpa using this.symm
        refine ⟨[], y :: ys, ?_, by simp⟩
        simp [hbest]
      | cons c l1t =>
        simp only [List.cons_append, List.cons.injEq] at hdec
        obtain ⟨hbc, hys⟩ := hdec
        subst hbc
        have hb : best.2 < (pyMax2 best ys).2 := hlt best (List.mem_cons_self _ _)
        refine ⟨best :: y :: l1t, l2,
          (congrArg (fun l => best :: y :: l) hys : _), ?_⟩
        intro a ha
        rcases List.mem_cons.1 ha with rfl | ha
        · exact hb
        · rcases List.mem_cons.1 ha with rfl | ha
          · omega
          · exact hlt a (List.mem_cons_of_mem _ ha)

/-! ### The recorded candidates list -/

/-- Candidate `b` was recorded after candidate `a` in the traversal: it
is a proper ancestor of `a`, hence strictly farther from the start. -/
def RecordedAfter (a b : FsPath × Nat) : Prop :=
  b.1 <:+ a.1 ∧ b.1.length < a.1.length

theorem dictInsert_mem {cands : List (FsPath × Nat)} {k : FsPath} {v : Nat}
    {a : FsPath × Nat} (h : a ∈ dictInsert cands k v) :
    a ∈ cands ∨ a = (k, v) := by
  unfold dictInsert at h
  split at h
  · obtain ⟨b, hb, hab⟩ := List.mem_map.1 h
    by_cases hbk : b.1 = k
    · rw [if_pos hbk] at hab
      right; exact hab.symm
    · rw [if_neg hbk] at hab
      left; exact hab ▸ hb
  · rcases List.mem_append.1 h with h | h
    · left; exact h
    · right; simpa using h

theorem dictInsert_fresh (cands : List (FsPath × Nat)) (k : FsPath) (v : Nat)
    (h : ∀ a ∈ cands, a.1 ≠ k) : dictInsert cands k v = cands ++ [(k, v)] := by
  unfold dictInsert
  rw [if_neg]
  simp only [List.any_eq_true, decide_eq_true_eq, not_exists]
  push_neg
  exact h

/-- Everything in the final candidates list was either in the initial
accumulator or was recorded by the loop; a recorded entry is a
non-root, existing, non-blocked directory with a positive marker count,
recorded with exactly that count. -/
theorem markersLoop_mem (fs : FS) (markers : List String) :
    ∀ (fuel : Nat) (current : FsPath) (cands : List (FsPath × Nat))
      (a : FsPath × Nat),
      a ∈ (markersLoop fs markers fuel current cands).1 →
      a ∈ cands ∨
        (a.1 ≠ [] ∧ NON_ROOT_DIR_NAMES.contains (baseName a.1) = false ∧
         (fs.pathExists a.1 && fs.isDir a.1) = true ∧
         a.2 = markerCount fs markers a.1 ∧ 0 < a.2) := by
  intro fuel
  induction fuel with
  | zero =>
    intro current cands a h
    left; simpa [markersLoop] using h
  | succ n ih =>
    intro current cands a h
    by_cases hroot : current = parentOf current
    · left; simpa [markersLoop, if_pos hroot] using h
    · have hnil : current ≠ [] := by
        intro hn; exact hroot (by simp [hn, parentOf])
      simp only [markersLoop, if_neg hroot] at h
      split at h
      · exact ih _ _ _ h
      · split at h
        · exact ih _ _ _ h
        · rename_i hdir hblock
          rcases ih _ _ _ h with hmem | hprops
          · split at hmem
            · rename_i hcnt
              rcases dictInsert_mem hmem with hmem | rfl
              · left; exact hmem
              · right
                refine ⟨hnil, ?_, ?_, rfl, hcnt⟩
                · simpa using hblock
                · simpa using hdir
            · left; exact hmem
          · right; exact hprops

/-- The candidates list is recorded nearest-to-start first: the loop's
output is pairwise ordered by `RecordedAfter`, provided the accumulator
already is and every accumulated key lies strictly below `current`. -/
theorem markersLoop_pairwise (fs : FS) (markers : List String) :
    ∀ (fuel : Nat) (current : FsPath) (cands : List (FsPath × Nat)),
      cands.Pairwise RecordedAfter →
      (∀ a ∈ cands, current <:+ a.1 ∧ current.length < a.1.length) →
      (markersLoop fs markers fuel current cands).1.Pairwise RecordedAfter := by
  intro fuel
  induction fuel with
  | zero =>
    intro current cands hp _
    simpa [markersLoop] using hp
  | succ n ih =>
    intro current cands hp hinv
    by_cases hroot : current = parentOf current
    · simpa [markersLoop, if_pos hroot] using hp
    · have hnil : current ≠ [] := by
        intro hn; exact hroot (by simp [hn, parentOf])
      have hs : parentOf current <:+ current := by
        cases current with
        | nil => exact absurd rfl hnil
        | cons x t => exact List.suffix_cons x t
      have hlen := parentOf_length current hnil
      have hnext : ∀ a ∈ cands,
          parentOf current <:+ a.1 ∧ (parentOf current).length < a.1.length := by
        intro a ha
        obtain ⟨h1, h2⟩ := hinv a ha
        exact ⟨hs.trans h1, by omega⟩
      simp only [markersLoop, if_neg hroot]
      split
      · exact ih _ _ hp hnext
      · split
        · exact ih _ _ hp hnext
        · split
          · rename_i hcnt
            have hfresh : ∀ a ∈ cands, a.1 ≠ current := by
              intro a ha heq
              have h2 := (hinv a ha).2
              rw [heq] at h2
              exact lt_irrefl _ h2
            rw [dictInsert_fresh cands current _ hfresh]
            apply ih
            · rw [List.pairwise_append]
              refine ⟨hp, by simp, ?_⟩
              intro a ha b hb
              simp only [List.mem_singleton] at hb
              subst hb
              exact ⟨(hinv a ha).1, (hinv a ha).2⟩
            · intro a ha
              rcases List.mem_append.1 ha with ha | ha
              · exact hnext a ha
              · simp only [List.mem_singleton] at ha
                subst ha
                exact ⟨hs, show (parentOf current).length < current.length by omega⟩
          · exact ih _ _ hp hnext

theorem findByMarkers_eq_some {fs : FS} {start : FsPath}
    {markers : Option (List String)} {p : FsPath}
    (h : findByMarkers fs start markers = some p) :
    ∃ c, (p, c) ∈ markersCandidates fs start markers := by
  rcases hcs : markersCandidates fs start markers with _ | ⟨x, xs⟩
  · rw [findByMarkers, hcs] at h
    simp [pyMaxBySnd] at h
  · rw [findByMarkers, hcs] at h
    simp only [pyMaxBySnd, Option.some.injEq] at h
    refine ⟨(pyMax2 x xs).2, ?_⟩
    rw [← h]
    simpa [Prod.mk.eta] using pyMax2_mem x xs

theorem structLoop_some (fs : FS) :
    ∀ (fuel : Nat) (current : FsPath) (q : FsPath),
      structLoop fs fuel current = some q →
      q ≠ [] ∧ structCheck fs q = true := by
  intro fuel
  induction fuel with
  | zero =>
    intro current q h
    simp [structLoop] at h
  | succ n ih =>
    intro current q h
    simp only [structLoop] at h
    split at h
    · simp at h
    · split at h
      · rename_i hroot hchk
        have hq : current = q := by simpa using h
        subst hq
        refine ⟨?_, hchk⟩
        intro hn
        exact hroot (by simp [hn, parentOf])
      · exact ih _ _ h

/-! ### Claim theorems for the marker scorer -/

/-- C1: when `_find_by_markers` records at least one candidate, it
returns a candidate with the maximum marker count (every candidate
counts at most `c`), and among candidates tied for that maximum it
returns the one recorded first; the candidate list is recorded
nearest-to-start first (each later candidate is a proper ancestor of
each earlier one), so the nearest tied candidate wins, and any
candidate with a strictly higher count is preferred regardless of
distance. -/
theorem findByMarkers_selects_stable_max (fs : FS) (start : FsPath)
    (markers : Option (List String))
    (h : markersCandidates fs start markers ≠ []) :
    ∃ p c l1 l2,
      findByMarkers fs start markers = some p ∧
      markersCandidates fs start markers = l1 ++ (p, c) :: l2 ∧
      (∀ a ∈ markersCandidates fs start markers, a.2 ≤ c) ∧
      (∀ a ∈ l1, a.2 < c) ∧
      (markersCandidates fs start markers).Pairwise RecordedAfter := by
  obtain ⟨x, xs, hcs⟩ := List.exists_cons_of_ne_nil h
  have hpw : (markersCandidates fs start markers).Pairwise RecordedAfter :=
    markersLoop_pairwise fs (effectiveMarkers markers) MAX_TRAVERSAL_DEPTH
      (startDir fs start) [] List.Pairwise.nil (by simp)
  obtain ⟨l1, l2, hdec, hlt⟩ := pyMax2_stable xs x
  refine ⟨(pyMax2 x xs).1, (pyMax2 x xs).2, l1, l2, ?_, ?_, ?_, hlt, hpw⟩
  · simp only [findByMarkers, hcs, pyMaxBySnd]
  · rw [hcs]
    simpa [Prod.mk.eta] using hdec
  · intro a ha
    rw [hcs] at ha
    exact pyMax2_is_ub x xs a ha

/-- A filesystem with two tied candidates (`b/a` and `a`, one marker
each) below the start `c/b/a`: the nearer directory `b/a` is selected. -/
def fsTied : FS where
  pathExists q :=
    ([["c", "b", "a"], ["b", "a"], ["a"], ["m", "b", "a"], ["m", "a"]] :
      List FsPath).contains q
  isDir q := ([["c", "b", "a"], ["b", "a"], ["a"]] : List FsPath).contains q
  isFile _ := false
  hasPyFile _ := false

theorem findByMarkers_selects_stable_max_witness :
    markersCandidates fsTied ["c", "b", "a"] (some ["m"]) ≠ [] ∧
    (∃ p c l1 l2,
      findByMarkers fsTied ["c", "b", "a"] (some ["m"]) = some p ∧
      markersCandidates fsTied ["c", "b", "a"] (some ["m"]) = l1 ++ (p, c) :: l2 ∧
      (∀ a ∈ markersCandidates fsTied ["c", "b", "a"] (some ["m"]), a.2 ≤ c) ∧
      (∀ a ∈ l1, a.2 < c) ∧
      (markersCandidates fsTied ["c", "b", "a"] (some ["m"])).Pairwise RecordedAfter) ∧
    findByMarkers fsTied ["c", "b", "a"] (some ["m"]) = some ["b", "a"] :=
  ⟨by decide,
   findByMarkers_selects_stable_max fsTied ["c", "b", "a"] (some ["m"]) (by decide),
   by decide⟩

/-- C7: `_find_by_markers` never returns a directory whose basename is
one of the blocked names, whatever markers it contains. -/
theorem findByMarkers_never_returns_blocked (fs : FS) (start : FsPath)
    (markers : Option (List String)) (p : FsPath)
    (h : findByMarkers fs start markers = some p) :
    baseName p ∉ NON_ROOT_DIR_NAMES := by
  obtain ⟨c, hmem⟩ := findByMarkers_eq_some h
  rcases markersLoop_mem fs (effectiveMarkers markers) MAX_TRAVERSAL_DEPTH
      (startDir fs start) [] (p, c) hmem with hmem | hprops
  · simp at hmem
  · intro hin
    have hc : NON_ROOT_DIR_NAMES.contains (baseName p) = false := hprops.2.1
    have h2 : NON_ROOT_DIR_NAMES.contains (baseName p) = true :=
      List.elem_iff.mpr hin
    rw [hc] at h2
    exact Bool.false_ne_true h2

/-- A `.git` directory on the way up contains the marker, yet the
traversal skips it and returns its ancestor `r`. -/
def fsBlocked : FS where
  pathExists q :=
    ([["c", ".git", "r"], [".git", "r"], ["r"], ["m", ".git", "r"], ["m", "r"]] :
      List FsPath).contains q
  isDir q := ([["c", ".git", "r"], [".git", "r"], ["r"]] : List FsPath).contains q
  isFile _ := false
  hasPyFile _ := false

theorem findByMarkers_never_returns_blocked_witness :
    baseName ["r"] ∉ NON_ROOT_DIR_NAMES ∧
    findByMarkers fsBlocked ["c", ".git", "r"] (some ["m"]) = some ["r"] ∧
    fsBlocked.pathExists ["m", ".git", "r"] = true :=
  ⟨findByMarkers_never_returns_blocked fsBlocked ["c", ".git", "r"] (some ["m"])
      ["r"] (by decide),
   by decide, by decide⟩

/-- C9: neither upward loop ever returns the filesystem root itself:
both exit as soon as the current directory equals its own parent, so
markers or a qualifying structure present only at the root yield "not
found". -/
theorem traversals_never_return_root (fs : FS) (start : FsPath)
    (markers : Option (List String)) :
    (∀ p, findByMarkers fs start markers = some p → p ≠ []) ∧
    (∀ q, findByStructure fs start = some q → q ≠ []) := by
  constructor
  · intro p h
    obtain ⟨c, hmem⟩ := findByMarkers_eq_some h
    rcases markersLoop_mem fs (effectiveMarkers markers) MAX_TRAVERSAL_DEPTH
        (startDir fs start) [] (p, c) hmem with hmem | hprops
    · simp at hmem
    · exact hprops.1
  · intro q h
    exact (structLoop_some fs MAX_TRAVERSAL_DEPTH start q h).1

/-- A tree where marker scoring returns `a` and the structure heuristic
returns `b/a`, both distinct from the root. -/
def fsBoth : FS where
  pathExists q :=
    ([["m", "a"], ["src", "a"], ["src", "b", "a"], ["a"], ["b", "a"]] :
      List FsPath).contains q
  isDir q :=
    ([["src", "a"], ["src", "b", "a"], ["a"], ["b", "a"]] : List FsPath).contains q
  isFile _ := false
  hasPyFile q := ([["b", "a"]] : List FsPath).contains q

theorem traversals_never_return_root_witness :
    (["a"] : FsPath) ≠ [] ∧ (["b", "a"] : FsPath) ≠ [] ∧
    findByMarkers fsBoth ["b", "a"] (some ["m"]) = some ["a"] ∧
    findByStructure fsBoth ["b", "a"] = some ["b", "a"] :=
  ⟨(traversals_never_return_root fsBoth ["b", "a"] (some ["m"])).1 ["a"] (by decide),
   (traversals_never_return_root fsBoth ["b", "a"] (some ["m"])).2 ["b", "a"] (by decide),
   by decide, by decide⟩

/-! ### File start paths (claim C2) -/

/-- C2 (amended): for a start path that is a regular file,
`_find_by_markers` strips the file to its parent before its loop begins
and so behaves exactly as if invoked with the parent directory as the
start path; `_find_by_structure` performs no such strip: it begins at
the file itself, which (failing the structure test, as any regular file
does) consumes one hop, so the traversal continues from the parent with
only 49 of the 50 hops remaining. -/
theorem file_start_begins_at_parent (fs : FS) (start : FsPath)
    (markers : Option (List String))
    (hfile : fs.isFile start = true)
    (hpdir : fs.isFile (parentOf start) = false)
    (hnil : start ≠ [])
    (hsrc : fs.pathExists (childOf start "src") = false)
    (hlib : fs.pathExists (childOf start "lib") = false) :
    findByMarkers fs start markers = findByMarkers fs (parentOf start) markers ∧
    markersCandidates fs start markers = markersCandidates fs (parentOf start) markers ∧
    findByStructure fs start =
      structLoop fs (MAX_TRAVERSAL_DEPTH - 1) (parentOf start) := by
  have hsd : startDir fs start = parentOf start := by simp [startDir, hfile]
  have hsd2 : startDir fs (parentOf start) = parentOf start := by simp [startDir, hpdir]
  refine ⟨?_, ?_, ?_⟩
  · simp only [findByMarkers, markersCandidates, hsd, hsd2]
  · simp only [markersCandidates, hsd, hsd2]
  · have hne : start ≠ parentOf start := fun h => hnil ((parentOf_self_iff start).1 h)
    have hchk : structCheck fs start = false := by
      simp [structCheck, hsrc, hlib]
    show structLoop fs MAX_TRAVERSAL_DEPTH start = _
    rw [show MAX_TRAVERSAL_DEPTH = 49 + 1 from rfl]
    simp only [structLoop, if_neg hne, hchk]
    simp

/-- A directory `p` exactly 50 hops above the deep directory
`d^49/p`, qualifying for the structure heuristic; `f` is a file in that
deep directory. -/
def deepDir : FsPath := List.replicate 49 "d" ++ ["p"]

def deepFile : FsPath := "f" :: deepDir

def fsDeep : FS where
  pathExists q := q == ["src", "p"]
  isDir q := q == ["src", "p"]
  isFile q := q == deepFile
  hasPyFile q := q == ["p"]

/-- Counterexample to C2 as stated: with a regular-file start path, the
structure heuristic does not begin at the file's parent — the file
itself consumes one hop, so the two start paths give different
results when the qualifying directory sits exactly at the hop bound. -/
theorem file_start_structure_counterexample :
    fsDeep.isFile deepFile = true ∧
    findByStructure fsDeep (parentOf deepFile) = some ["p"] ∧
    findByStructure fsDeep deepFile = none ∧
    findByStructure fsDeep deepFile ≠ findByStructure fsDeep (parentOf deepFile) := by
  refine ⟨by decide, by decide, by decide, by decide⟩

theorem file_start_begins_at_parent_witness :
    (findByMarkers fsDeep deepFile (some ["m"]) =
      findByMarkers fsDeep (parentOf deepFile) (some ["m"])) ∧
    (markersCandidates fsDeep deepFile (some ["m"]) =
      markersCandidates fsDeep (parentOf deepFile) (some ["m"])) ∧
    findByStructure fsDeep deepFile =
      structLoop fsDeep (MAX_TRAVERSAL_DEPTH - 1) (parentOf deepFile) :=
  file_start_begins_at_parent fsDeep deepFile (some ["m"])
    (by decide) (by decide) (by decide) (by decide) (by decide)

/-! ### The orchestrator `find_root` (claims C3, C4, C5, C10) -/

theorem findRootGo_ok_cache (env : StrategyEnv) :
    ∀ (ms : List String) (p : FsPath),
      (findRootGo env ms).1 = Except.ok p → (findRootGo env ms).2.1 = some p := by
  intro ms
  induction ms with
  | nil =>
    intro p h
    simp [findRootGo] at h
  | cons name rest ih =>
    intro p h
    by_cases hk : knownMethods.contains name = true
    · cases henv : env name with
      | ok v =>
        cases v with
        | some q =>
          simp only [findRootGo, hk, if_true, henv] at h ⊢
          simpa using h
        | none =>
          simp only [findRootGo, hk, if_true, henv] at h ⊢
          exact ih p h
      | error e =>
        simp only [findRootGo, hk, if_true, henv] at h ⊢
        exact ih p h
    · simp only [findRootGo, hk, if_false, Bool.false_eq_true] at h ⊢
      exact ih p h

theorem findRootGo_error_cache (env : StrategyEnv) :
    ∀ (ms : List String) (e : Unit),
      (findRootGo env ms).1 = Except.error e → (findRootGo env ms).2.1 = none := by
  intro ms
  induction ms with
  | nil =>
    intro e _
    simp [findRootGo]
  | cons name rest ih =>
    intro e h
    by_cases hk : knownMethods.contains name = true
    · cases henv : env name with
      | ok v =>
        cases v with
        | some q =>
          simp only [findRootGo, hk, if_true, henv] at h
          simp at h
        | none =>
          simp only [findRootGo, hk, if_true, henv] at h ⊢
          exact ih e h
      | error e2 =>
        simp only [findRootGo, hk, if_true, henv] at h ⊢
        exact ih e h
    · simp only [findRootGo, hk, if_false, Bool.false_eq_true] at h ⊢
      exact ih e h

theorem findRootGo_error_iff (env : StrategyEnv) :
    ∀ ms : List String,
      (findRootGo env ms).1 = Except.error () ↔
      ∀ name ∈ ms, knownMethods.contains name = true →
        yieldsNoPath (env name) = true := by
  intro ms
  induction ms with
  | nil => simp [findRootGo]
  | cons name rest ih =>
    by_cases hk : knownMethods.contains name = true
    · cases henv : env name with
      | ok v =>
        cases v with
        | some q =>
          simp only [findRootGo, hk, if_true, henv, List.forall_mem_cons]
          constructor
          · intro h
            simp at h
          · intro h
            have h2 := h.1
            simp [yieldsNoPath] at h2
        | none =>
          simp only [findRootGo, hk, if_true, henv, List.forall_mem_cons]
          rw [ih]
          simp [henv, yieldsNoPath]
      | error e =>
        simp only [findRootGo, hk, if_true, henv, List.forall_mem_cons]
        rw [ih]
        simp [henv, yieldsNoPath]
    · simp only [findRootGo, hk, if_false, Bool.false_eq_true, List.forall_mem_cons]
      rw [ih]
      simp [hk]

/-- C3: with an empty cache, `find_root` raises the root-not-found
error iff every configured strategy yields no result; a strategy that
raises is caught and counts as "no result" rather than propagating, and
unknown strategy names are skipped, so the caller sees either a path or
this single failure. -/
theorem findRoot_error_iff_all_fail (env : StrategyEnv) (ms : List String) :
    (findRoot env ⟨none⟩ (some ms)).1 = Except.error () ↔
    ∀ name ∈ ms, knownMethods.contains name = true →
      yieldsNoPath (env name) = true := by
  simpa [findRoot] using findRootGo_error_iff env ms

theorem findRootGo_ok_decomp (env : StrategyEnv) :
    ∀ (ms : List String) (p : FsPath),
      (findRootGo env ms).1 = Except.ok p →
      ∃ l1 m l2, ms = l1 ++ m :: l2 ∧
        knownMethods.contains m = true ∧
        env m = Except.ok (some p) ∧
        (findRootGo env ms).2.2 =
          (l1.filter (fun n => knownMethods.contains n)) ++ [m] ∧
        ∀ n ∈ l1, knownMethods.contains n = true →
          yieldsNoPath (env n) = true := by
  intro ms
  induction ms with
  | nil =>
    intro p h
    simp [findRootGo] at h
  | cons name rest ih =>
    intro p h
    by_cases hk : knownMethods.contains name = true
    · cases henv : env name with
      | ok v =>
        cases v with
        | some q =>
          simp only [findRootGo, hk, if_true, henv] at h ⊢
          obtain rfl : q = p := by simpa using h
          exact ⟨[], name, rest, rfl, hk, henv, by simp, by simp⟩
        | none =>
          simp only [findRootGo, hk, if_true, henv] at h ⊢
          obtain ⟨l1, m, l2, hms, hkm, henvm, htr, hfail⟩ := ih p h
          have hk2 : name ∈ knownMethods := by simpa using hk
          refine ⟨name :: l1, m, l2, by simp [hms], hkm, henvm, ?_, ?_⟩
          · simp [htr, hk2]
          · intro n hn hkn
            rcases List.mem_cons.1 hn with rfl | hn
            · simp [henv, yieldsNoPath]
            · exact hfail n hn hkn
      | error e =>
        simp only [findRootGo, hk, if_true, henv] at h ⊢
        obtain ⟨l1, m, l2, hms, hkm, henvm, htr, hfail⟩ := ih p h
        have hk2 : name ∈ knownMethods := by simpa using hk
        refine ⟨name :: l1, m, l2, by simp [hms], hkm, henvm, ?_, ?_⟩
        · simp [htr, hk2]
        · intro n hn hkn
          rcases List.mem_cons.1 hn with rfl | hn
          · simp [henv, yieldsNoPath]
          · exact hfail n hn hkn
    · simp only [findRootGo, hk, if_false, Bool.false_eq_true] at h ⊢
      obtain ⟨l1, m, l2, hms, hkm, henvm, htr, hfail⟩ := ih p h
      have hk2 : name ∉ knownMethods := by simpa using hk
      refine ⟨name :: l1, m, l2, by simp [hms], hkm, henvm, ?_, ?_⟩
      · simp [htr, hk2]
      · intro n hn hkn
        rcases List.mem_cons.1 hn with rfl | hn
        · rw [hkn] at hk
          exact absurd rfl hk
        · exact hfail n hn hkn

/-- C5: `find_root` short-circuits: on a successful fresh call the
invocation trace is exactly the known strategies occurring before the
successful one followed by the successful one itself — no strategy
occurring later in the list is invoked during that call. -/
theorem findRoot_short_circuits (env : StrategyEnv) (ms : List String)
    (p : FsPath) (s1 : ResolverState) (tr : List String)
    (h : findRoot env ⟨none⟩ (some ms) = (Except.ok p, s1, tr)) :
    ∃ l1 m l2, ms = l1 ++ m :: l2 ∧
      knownMethods.contains m = true ∧
      env m = Except.ok (some p) ∧
      tr = (l1.filter (fun n => knownMethods.contains n)) ++ [m] ∧
      ∀ n ∈ l1, knownMethods.contains n = true →
        yieldsNoPath (env n) = true := by
  have h1 : (findRootGo env ms).1 = Except.ok p := by
    have := congrArg (fun x => x.1) h
    simpa [findRoot] using this
  have h3 : (findRootGo env ms).2.2 = tr := by
    have := congrArg (fun x => x.2.2) h
    simpa [findRoot] using this
  obtain ⟨l1, m, l2, hms, hk, henv, htr, hfail⟩ := findRootGo_ok_decomp env ms p h1
  exact ⟨l1, m, l2, hms, hk, henv, h3 ▸ htr, hfail⟩

/-- C4: once a `find_root` call succeeds, the instance cache holds the
returned path, and every subsequent call — with any strategy behaviour
and any strategy list, including a different one — returns the
identical cached path, leaves the state untouched, and invokes no
strategy. -/
theorem findRoot_caches_success (env : StrategyEnv) (s : ResolverState)
    (searchMethods : Option (List String)) (p : FsPath) (s1 : ResolverState)
    (tr : List String)
    (h : findRoot env s searchMethods = (Except.ok p, s1, tr)) :
    s1.cache = some p ∧
    ∀ (env2 : StrategyEnv) (ms2 : Option (List String)),
      findRoot env2 s1 ms2 = (Except.ok p, s1, []) := by
  have hc : s1.cache = some p := by
    cases hsc : s.cache with
    | some q =>
      unfold findRoot at h
      rw [hsc] at h
      simp only [Prod.mk.injEq] at h
      obtain ⟨h1, h2, _⟩ := h
      rw [← h2, hsc]
      simpa using h1
    | none =>
      unfold findRoot at h
      rw [hsc] at h
      simp only [Prod.mk.injEq] at h
      obtain ⟨h1, h2, _⟩ := h
      rw [← h2]
      exact findRootGo_ok_cache env _ p h1
  refine ⟨hc, ?_⟩
  intro env2 ms2
  cases s1 with
  | mk c =>
    simp only [ResolverState.mk.injEq] at hc ⊢
    subst hc
    rfl

/-- C10: when `find_root` fails with the root-not-found error, the
cache is left unset — it is only ever written with a successful
strategy result — so a subsequent call on the same instance behaves
exactly like a call on a fresh instance and re-runs the strategies. -/
theorem findRoot_failure_leaves_cache_unset (env : StrategyEnv)
    (s : ResolverState) (searchMethods : Option (List String))
    (e : Unit) (s1 : ResolverState) (tr : List String)
    (h : findRoot env s searchMethods = (Except.error e, s1, tr)) :
    s1.cache = none ∧
    ∀ (env2 : StrategyEnv) (ms2 : Option (List String)),
      findRoot env2 s1 ms2 = findRoot env2 ⟨none⟩ ms2 := by
  have hc : s1.cache = none := by
    cases hsc : s.cache with
    | some q =>
      unfold findRoot at h
      rw [hsc] at h
      simp at h
    | none =>
      unfold findRoot at h
      rw [hsc] at h
      simp only [Prod.mk.injEq] at h
      obtain ⟨h1, h2, _⟩ := h
      rw [← h2]
      exact findRootGo_error_cache env _ e h1
  refine ⟨hc, ?_⟩
  intro env2 ms2
  cases s1 with
  | mk c =>
    simp only at hc
    subst hc
    rfl

/-- An environment where `git` returns `None`, `markers` succeeds, and
everything else raises. -/
def envFive : StrategyEnv := fun name =>
  if name = "markers" then Except.ok (some ["root"])
  else if name = "git" then Except.ok none
  else Except.error ()

/-- An environment where every strategy raises. -/
def envRaise : StrategyEnv := fun _ => Except.error ()

theorem findRoot_short_circuits_witness :
    ∃ l1 m l2, (["git", "bogus", "markers", "structure"] : List String) = l1 ++ m :: l2 ∧
      knownMethods.contains m = true ∧
      envFive m = Except.ok (some ["root"]) ∧
      (["git", "markers"] : List String) =
        (l1.filter (fun n => knownMethods.contains n)) ++ [m] ∧
      ∀ n ∈ l1, knownMethods.contains n = true →
        yieldsNoPath (envFive n) = true :=
  findRoot_short_circuits envFive ["git", "bogus", "markers", "structure"]
    ["root"] ⟨some ["root"]⟩ ["git", "markers"] (by rfl)

theorem findRoot_caches_success_witness :
    (⟨some ["root"]⟩ : ResolverState).cache = some ["root"] ∧
    ∀ (env2 : StrategyEnv) (ms2 : Option (List String)),
      findRoot env2 ⟨some ["root"]⟩ ms2 = (Except.ok ["root"], ⟨some ["root"]⟩, []) :=
  findRoot_caches_success envFive ⟨none⟩ (some ["markers"]) ["root"]
    ⟨some ["root"]⟩ ["markers"] (by rfl)

theorem findRoot_failure_leaves_cache_unset_witness :
    (⟨none⟩ : ResolverState).cache = none ∧
    ∀ (env2 : StrategyEnv) (ms2 : Option (List String)),
      findRoot env2 ⟨none⟩ ms2 = findRoot env2 ⟨none⟩ ms2 :=
  findRoot_failure_leaves_cache_unset envRaise ⟨none⟩ (some ["git", "svn"])
    () ⟨none⟩ ["git", "svn"] (by rfl)

end ProjectUtils
